import Mathlib

/-
Verification of the grammar-derivation engine described in spec.md for the
nouveau repository.  The repository's source under src/ contains the
17-line override map `src/crates/tree_sitter_crochet/grammar.js`; the
derivation engine itself (Rule Expression IR, Grammar Model, Override
Resolver, Validation Checker, Derivation Facade) is not present under
src/, so those components are modelled from the spec (sections 3, 4 and 7)
and each such definition is marked `Modelled from the spec:`.  The two
override builders of grammar.js are embedded directly from the source.
-/

/-- Rule names are interned identifiers, modelled as strings (spec section 3). -/
abbrev RuleName := String

/-- Associativity tag for precedence wrappers (spec section 3, `Prec(level, assoc, body)`). -/
inductive Assoc where
  | left
  | right
  | nonassoc
  deriving DecidableEq, Repr

mutual
/-- Modelled from the spec: the Rule Expression IR of section 3 — an immutable
tree of variants for production bodies.  The `children` lists of `Sequence`
and `Choice` are represented by the companion type `RuleList`. -/
inductive RuleExpr where
  | Sequence (children : RuleList)
  | Choice (alternatives : RuleList)
  | Repeat (body : RuleExpr) (min : Nat)
  | Optional (body : RuleExpr)
  | Literal (text : String)
  | Pattern (spec : String)
  | Symbol (name : RuleName)
  | Field (fieldName : String) (body : RuleExpr)
  | Alias (body : RuleExpr) (displayName : String)
  | Prec (level : Int) (assoc : Assoc) (body : RuleExpr)
  deriving DecidableEq, Repr

/-- A list of rule expressions (children of `Sequence`/`Choice`). -/
inductive RuleList where
  | nil
  | cons (head : RuleExpr) (tail : RuleList)
  deriving DecidableEq, Repr
end

/-- Build a `RuleList` from an ordinary list. -/
def RuleList.ofList : List RuleExpr → RuleList
  | [] => .nil
  | e :: es => .cons e (RuleList.ofList es)

/-- Number of children in a `RuleList`. -/
def RuleList.length : RuleList → Nat
  | .nil => 0
  | .cons _ es => es.length + 1

mutual
/-- Modelled from the spec: a deep embedding of the override builder
functions of section 3 (`builder : (DSL, previousExpr) → RuleExpr`).  The
DSL handle is embedded as the IR constructors (`$.rule` becomes `Symbol`),
and the builder's `previous` argument is the `Previous` leaf, so whether a
builder dereferences `previous` is the syntactic presence of `Previous`. -/
inductive BuilderExpr where
  | Sequence (children : BuilderList)
  | Choice (alternatives : BuilderList)
  | Repeat (body : BuilderExpr) (min : Nat)
  | Optional (body : BuilderExpr)
  | Literal (text : String)
  | Pattern (spec : String)
  | Symbol (name : RuleName)
  | Field (fieldName : String) (body : BuilderExpr)
  | Alias (body : BuilderExpr) (displayName : String)
  | Prec (level : Int) (assoc : Assoc) (body : BuilderExpr)
  | Previous
  deriving DecidableEq, Repr

/-- A list of builder expressions. -/
inductive BuilderList where
  | nil
  | cons (head : BuilderExpr) (tail : BuilderList)
  deriving DecidableEq, Repr
end

/-- Build a `BuilderList` from an ordinary list. -/
def BuilderList.ofList : List BuilderExpr → BuilderList
  | [] => .nil
  | e :: es => .cons e (BuilderList.ofList es)

mutual
/-- Run a builder against the previous rule body: every `Previous` leaf is
replaced by `p`, all other variants map to the corresponding IR variant. -/
def evalBuilder (p : RuleExpr) : BuilderExpr → RuleExpr
  | .Sequence cs => .Sequence (evalBuilderList p cs)
  | .Choice cs => .Choice (evalBuilderList p cs)
  | .Repeat b m => .Repeat (evalBuilder p b) m
  | .Optional b => .Optional (evalBuilder p b)
  | .Literal t => .Literal t
  | .Pattern s => .Pattern s
  | .Symbol n => .Symbol n
  | .Field f b => .Field f (evalBuilder p b)
  | .Alias b d => .Alias (evalBuilder p b) d
  | .Prec l a b => .Prec l a (evalBuilder p b)
  | .Previous => p

/-- Run a builder list against the previous rule body. -/
def evalBuilderList (p : RuleExpr) : BuilderList → RuleList
  | .nil => .nil
  | .cons b bs => .cons (evalBuilder p b) (evalBuilderList p bs)
end

mutual
/-- Whether a builder dereferences its `previous` argument, i.e. contains a
`Previous` leaf. -/
def usesPrevious : BuilderExpr → Bool
  | .Sequence cs => usesPreviousList cs
  | .Choice cs => usesPreviousList cs
  | .Repeat b _ => usesPrevious b
  | .Optional b => usesPrevious b
  | .Literal _ => false
  | .Pattern _ => false
  | .Symbol _ => false
  | .Field _ b => usesPrevious b
  | .Alias b _ => usesPrevious b
  | .Prec _ _ b => usesPrevious b
  | .Previous => true

/-- Whether any builder in a list dereferences `previous`. -/
def usesPreviousList : BuilderList → Bool
  | .nil => false
  | .cons b bs => usesPrevious b || usesPreviousList bs
end

mutual
/-- All `Symbol` references occurring anywhere in a rule body (spec
section 3: `Symbol` leaves are the only place cross-rule references occur). -/
def symbolRefs : RuleExpr → List RuleName
  | .Sequence cs => symbolRefsList cs
  | .Choice cs => symbolRefsList cs
  | .Repeat b _ => symbolRefs b
  | .Optional b => symbolRefs b
  | .Literal _ => []
  | .Pattern _ => []
  | .Symbol n => [n]
  | .Field _ b => symbolRefs b
  | .Alias b _ => symbolRefs b
  | .Prec _ _ b => symbolRefs b

/-- All `Symbol` references occurring in a list of rule bodies. -/
def symbolRefsList : RuleList → List RuleName
  | .nil => []
  | .cons e es => symbolRefs e ++ symbolRefsList es
end

mutual
/-- Modelled from the spec: the structural well-formedness invariants of
section 4.1 / 4.4 — a `Sequence` must be non-empty and a `Choice` must have
at least two alternatives (an empty sequence or a 0/1-alternative choice is
malformed). -/
def wellFormedExpr : RuleExpr → Bool
  | .Sequence cs => decide (1 ≤ cs.length) && wellFormedList cs
  | .Choice cs => decide (2 ≤ cs.length) && wellFormedList cs
  | .Repeat b _ => wellFormedExpr b
  | .Optional b => wellFormedExpr b
  | .Literal _ => true
  | .Pattern _ => true
  | .Symbol _ => true
  | .Field _ b => wellFormedExpr b
  | .Alias b _ => wellFormedExpr b
  | .Prec _ _ b => wellFormedExpr b

/-- Well-formedness of every expression in a list. -/
def wellFormedList : RuleList → Bool
  | .nil => true
  | .cons e es => wellFormedExpr e && wellFormedList es
end

/-- Modelled from the spec: the Grammar Model of section 3 — a named table
mapping rule-name to rule expression (insertion order significant, hence an
association list) plus grammar-level metadata. -/
structure Grammar where
  name : String
  rules : List (RuleName × RuleExpr)
  extras : List RuleName
  word : Option RuleName
  conflicts : List (List RuleName)
  precedences : List (List RuleName)
  supertypes : List RuleName
  externals : List RuleName
  deriving DecidableEq, Repr

/-- Modelled from the spec: an OverrideSpec of section 3 — a target rule
name together with a (deeply embedded) builder. -/
structure OverrideSpec where
  name : RuleName
  builder : BuilderExpr
  deriving DecidableEq, Repr

/-- Modelled from the spec: the closed set of failure kinds of section 7,
together with the name-collision diagnostic of section 4.4. -/
inductive DerivationError where
  | UnknownBaseRule (name : RuleName)
  | DanglingReference (inRule : RuleName) (target : RuleName)
  | ReservedNameCollision (name : RuleName)
  | MalformedExpression (inRule : RuleName)
  | MetadataReferenceInvalid (fieldName : String) (target : RuleName)
  | NameCollision (name : RuleName)
  deriving DecidableEq, Repr

/-- Look up a rule name in a rule table (first matching entry). -/
def lookupRule : List (RuleName × RuleExpr) → RuleName → Option RuleExpr
  | [], _ => none
  | kv :: rest, n => if kv.1 = n then some kv.2 else lookupRule rest n

/-- Whether a rule name is a key of the table. -/
def hasKey (t : List (RuleName × RuleExpr)) (n : RuleName) : Bool :=
  (lookupRule t n).isSome

/-- Replace the entry for `n` (keeping its position) in a rule table. -/
def updateRule : List (RuleName × RuleExpr) → RuleName → RuleExpr → List (RuleName × RuleExpr)
  | [], _, _ => []
  | kv :: rest, n, e => if kv.1 = n then (kv.1, e) :: rest else kv :: updateRule rest n e

/-- The keys of a rule table, in declaration order. -/
def ruleNames (t : List (RuleName × RuleExpr)) : List RuleName :=
  t.map Prod.fst

/-- Modelled from the spec: RuleNames reserved as built-in grammar keywords
(section 4.3, step 3), which additions must not reuse. -/
def reservedNames : List RuleName :=
  ["name", "rules", "extras", "conflicts", "word", "supertypes", "externals"]

/-- Modelled from the spec: one step of the Override Resolver (section 4.3,
steps 2-3).  If the target name is present in the working table, its current
entry is the `previous` value and the builder's result replaces it.  If it
is absent, the override is an addition, rejected with `UnknownBaseRule`
when the builder dereferences `previous` and with `ReservedNameCollision`
when the name is a reserved keyword (both diagnostics are collected). -/
def applyOverride (table : List (RuleName × RuleExpr)) (ov : OverrideSpec) :
    List (RuleName × RuleExpr) × List DerivationError :=
  match lookupRule table ov.name with
  | some prev => (updateRule table ov.name (evalBuilder prev ov.builder), [])
  | none =>
      if usesPrevious ov.builder = true ∨ ov.name ∈ reservedNames then
        (table,
          (if usesPrevious ov.builder then [DerivationError.UnknownBaseRule ov.name] else [])
          ++ (if ov.name ∈ reservedNames then [DerivationError.ReservedNameCollision ov.name] else []))
      else
        (table ++ [(ov.name, evalBuilder (.Literal "") ov.builder)], [])

/-- Modelled from the spec: the Override Resolver of section 4.3 — fold the
override sequence, in the order supplied, over a copy of the base table,
collecting all resolution diagnostics. -/
def resolveOverrides : List (RuleName × RuleExpr) → List OverrideSpec →
    List (RuleName × RuleExpr) × List DerivationError
  | table, [] => (table, [])
  | table, ov :: ovs =>
      let step := applyOverride table ov
      let rest := resolveOverrides step.1 ovs
      (rest.1, step.2 ++ rest.2)

/-- Modelled from the spec: the candidate Grammar of section 4.3, step 4 —
the resolved table together with the base's unmodified metadata and the new
derived name. -/
def candidate (base : Grammar) (overrides : List OverrideSpec) (derivedName : String) : Grammar :=
  { base with name := derivedName, rules := (resolveOverrides base.rules overrides).1 }

/-- Dangling-reference diagnostics for one rule body's symbol references. -/
def danglingIn (all : List (RuleName × RuleExpr)) (inRule : RuleName) :
    List RuleName → List DerivationError
  | [] => []
  | s :: ss =>
      (if hasKey all s then [] else [DerivationError.DanglingReference inRule s])
      ++ danglingIn all inRule ss

/-- Dangling-reference diagnostics for a list of rules, resolved against `all`. -/
def refErrs (all : List (RuleName × RuleExpr)) :
    List (RuleName × RuleExpr) → List DerivationError
  | [] => []
  | r :: rest => danglingIn all r.1 (symbolRefs r.2) ++ refErrs all rest

/-- Modelled from the spec: the reference-closure check of section 4.4 —
every `Symbol(RuleName)` appearing anywhere in any rule body must resolve
to a key of the candidate's table. -/
def checkRefClosure (g : Grammar) : List DerivationError :=
  refErrs g.rules g.rules

/-- Metadata diagnostics for a list of rule names required to exist in the table. -/
def metaErrs (all : List (RuleName × RuleExpr)) (fieldName : String) :
    List RuleName → List DerivationError
  | [] => []
  | n :: ns =>
      (if hasKey all n then [] else [DerivationError.MetadataReferenceInvalid fieldName n])
      ++ metaErrs all fieldName ns

/-- Modelled from the spec: the metadata-consistency check of section 4.4 —
every RuleName in extras/word/conflicts/precedences/supertypes/externals
must exist in the candidate's table. -/
def checkMetadata (g : Grammar) : List DerivationError :=
  metaErrs g.rules "extras" g.extras
  ++ (match g.word with
      | none => []
      | some w => metaErrs g.rules "word" [w])
  ++ metaErrs g.rules "conflicts" (g.conflicts.flatMap id)
  ++ metaErrs g.rules "precedences" (g.precedences.flatMap id)
  ++ metaErrs g.rules "supertypes" g.supertypes
  ++ metaErrs g.rules "externals" g.externals

/-- Malformed-expression diagnostics for a list of rules. -/
def wfErrs : List (RuleName × RuleExpr) → List DerivationError
  | [] => []
  | r :: rest =>
      (if wellFormedExpr r.2 then [] else [DerivationError.MalformedExpression r.1])
      ++ wfErrs rest

/-- Modelled from the spec: the structural well-formedness check of
section 4.4 — re-walk the IR confirming the arity invariants of 4.1. -/
def checkWellFormedAll (g : Grammar) : List DerivationError :=
  wfErrs g.rules

/-- Duplicate-name diagnostics over a key list. -/
def dupErrs : List RuleName → List DerivationError
  | [] => []
  | k :: rest =>
      (if k ∈ rest then [DerivationError.NameCollision k] else []) ++ dupErrs rest

/-- Modelled from the spec: the name-collision check of section 4.4 — no
two distinct rule definitions may claim the same RuleName. -/
def checkNameCollision (g : Grammar) : List DerivationError :=
  dupErrs (ruleNames g.rules)

/-- Modelled from the spec: the Validation and Consistency Checker of
section 4.4 — all checks are performed independently and their diagnostics
are collected, never short-circuited on the first failure. -/
def validate (g : Grammar) : List DerivationError :=
  checkRefClosure g ++ checkMetadata g ++ checkWellFormedAll g ++ checkNameCollision g

/-- Modelled from the spec: the Grammar Derivation Facade of section 4.5 —
resolve, then validate; return the candidate only when there is no
diagnostic, otherwise return the aggregated non-empty error list. -/
def derive (base : Grammar) (overrides : List OverrideSpec) (derivedName : String) :
    Except (List DerivationError) Grammar :=
  match (resolveOverrides base.rules overrides).2 ++ validate (candidate base overrides derivedName) with
  | [] => .ok (candidate base overrides derivedName)
  | e :: rest => .error (e :: rest)

/-- The `parenthesized_expression` override builder embedded from
`src/crates/tree_sitter_crochet/grammar.js`:
`($, previous) => seq("(", $.expression, ")")` — `previous` is never used. -/
def parenthesized_expression_builder : BuilderExpr :=
  .Sequence (.ofList [.Literal "(", .Symbol "expression", .Literal ")"])

/-- The `_expressions` override builder embedded from
`src/crates/tree_sitter_crochet/grammar.js`:
`($, previous) => $.expression` — `previous` is never used. -/
def expressions_builder : BuilderExpr :=
  .Symbol "expression"

/-- The override sequence of `src/crates/tree_sitter_crochet/grammar.js`,
in declaration order: `parenthesized_expression` then `_expressions`. -/
def crochet_overrides : List OverrideSpec :=
  [⟨"parenthesized_expression", parenthesized_expression_builder⟩,
   ⟨"_expressions", expressions_builder⟩]

/-- Modelled from the spec: the base-grammar fragment of Scenario 1
(section 8) — the tsx base grammar itself is an external collaborator, so
only the fragment the scenario fixes is modelled: `parenthesized_expression
= seq("(", choice(expression, sequence_expression, type_assertion), ")")`
plus minimal well-formed bodies for the referenced rules. -/
def tsx_base : Grammar where
  name := "tsx"
  rules :=
    [("expression", .Choice (.ofList [.Literal "x", .Symbol "parenthesized_expression"])),
     ("sequence_expression",
       .Sequence (.ofList [.Symbol "expression", .Literal ",", .Symbol "expression"])),
     ("type_assertion",
       .Sequence (.ofList [.Symbol "expression", .Literal ":", .Symbol "expression"])),
     ("parenthesized_expression",
       .Sequence (.ofList
         [.Literal "(",
          .Choice (.ofList
            [.Symbol "expression", .Symbol "sequence_expression", .Symbol "type_assertion"]),
          .Literal ")"]))]
  extras := []
  word := none
  conflicts := []
  precedences := []
  supertypes := []
  externals := []

/-- The override list of Scenario 1: replace `parenthesized_expression`
with the crochet builder, ignoring `previous`. -/
def crochet_scenario1 : List OverrideSpec :=
  [⟨"parenthesized_expression", parenthesized_expression_builder⟩]

/-- A minimal valid base grammar used for the addition scenarios. -/
def additionBase : Grammar where
  name := "mini"
  rules := [("expression", .Literal "x")]
  extras := []
  word := none
  conflicts := []
  precedences := []
  supertypes := []
  externals := []

/-- An addition override whose body references an undefined rule and never
dereferences `previous`. -/
def danglingAddition : OverrideSpec :=
  ⟨"extra_rule", .Symbol "missing_rule"⟩

/-- A base grammar with one dangling reference, one malformed body and one
missing extras entry — three defects found by three different checks. -/
def invalidBase : Grammar where
  name := "broken"
  rules := [("a", .Symbol "nope"), ("b", .Sequence .nil)]
  extras := ["ghost"]
  word := none
  conflicts := []
  precedences := []
  supertypes := []
  externals := []

/-- Classifier used to show validation never emits `UnknownBaseRule`. -/
def isUnknownBaseRule : DerivationError → Bool
  | .UnknownBaseRule _ => true
  | _ => false

/-! ### Rule-table lemmas -/

theorem hasKey_iff_mem (t : List (RuleName × RuleExpr)) (n : RuleName) :
    hasKey t n = true ↔ n ∈ ruleNames t := by
  induction t with
  | nil => simp [hasKey, lookupRule, ruleNames]
  | cons kv rest ih =>
    by_cases hk : kv.1 = n
    · simp [hasKey, lookupRule, hk, ruleNames]
    · have hk2 : n ≠ kv.1 := fun h => hk h.symm
      simp [hasKey, lookupRule, hk, ruleNames, hk2] at ih ⊢
      exact ih

theorem hasKey_eq_false_iff (t : List (RuleName × RuleExpr)) (n : RuleName) :
    hasKey t n = false ↔ lookupRule t n = none := by
  unfold hasKey
  cases lookupRule t n <;> simp

theorem ruleNames_updateRule (t : List (RuleName × RuleExpr)) (n : RuleName) (e : RuleExpr) :
    ruleNames (updateRule t n e) = ruleNames t := by
  induction t with
  | nil => rfl
  | cons kv rest ih =>
    by_cases hk : kv.1 = n
    · simp [updateRule, hk, ruleNames]
    · simp [updateRule, hk, ruleNames] at ih ⊢
      exact ih

theorem lookupRule_updateRule_self (t : List (RuleName × RuleExpr)) (n : RuleName) (e : RuleExpr)
    (h : hasKey t n = true) :
    lookupRule (updateRule t n e) n = some e := by
  induction t with
  | nil => simp [hasKey, lookupRule] at h
  | cons kv rest ih =>
    by_cases hk : kv.1 = n
    · simp [updateRule, hk, lookupRule]
    · simp [hasKey, lookupRule, hk] at h
      simp [updateRule, hk, lookupRule]
      exact ih (by simp [hasKey, h])

theorem lookupRule_updateRule_ne (t : List (RuleName × RuleExpr)) (n : RuleName) (e : RuleExpr)
    (k : RuleName) (hk : k ≠ n) :
    lookupRule (updateRule t n e) k = lookupRule t k := by
  induction t with
  | nil => rfl
  | cons kv rest ih =>
    by_cases hh : kv.1 = n
    · have hnk : ¬(n = k) := fun h => hk h.symm
      simp [updateRule, hh, lookupRule, hnk]
    · rw [updateRule, if_neg hh]
      by_cases hh2 : kv.1 = k
      · simp [lookupRule, hh2]
      · simp [lookupRule, hh2, ih]

theorem lookupRule_append_ne (t : List (RuleName × RuleExpr)) (n : RuleName) (e : RuleExpr)
    (k : RuleName) (hk : k ≠ n) :
    lookupRule (t ++ [(n, e)]) k = lookupRule t k := by
  induction t with
  | nil =>
    have : n ≠ k := fun h => hk h.symm
    simp [lookupRule, this]
  | cons kv rest ih =>
    by_cases hh : kv.1 = k
    · simp [lookupRule, hh]
    · simp [lookupRule, hh]
      exact ih

theorem ruleNames_append (t s : List (RuleName × RuleExpr)) :
    ruleNames (t ++ s) = ruleNames t ++ ruleNames s := by
  simp [ruleNames]

/-! ### Override-resolver lemmas -/

theorem applyOverride_keys (t : List (RuleName × RuleExpr)) (ov : OverrideSpec)
    (h : (applyOverride t ov).2 = []) (k : RuleName) :
    k ∈ ruleNames (applyOverride t ov).1 ↔ k ∈ ruleNames t ∨ k = ov.name := by
  cases hl : lookupRule t ov.name with
  | some prev =>
    have hm : ov.name ∈ ruleNames t :=
      (hasKey_iff_mem t ov.name).1 (by simp [hasKey, hl])
    have hfst : (applyOverride t ov).1 = updateRule t ov.name (evalBuilder prev ov.builder) := by
      simp [applyOverride, hl]
    rw [hfst, ruleNames_updateRule]
    constructor
    · exact Or.inl
    · rintro (hx | rfl)
      · exact hx
      · exact hm
  | none =>
    by_cases hcond : usesPrevious ov.builder = true ∨ ov.name ∈ reservedNames
    · exfalso
      rcases hcond with hu | hr
      · simp [applyOverride, hl, hu] at h
      · simp [applyOverride, hl, hr] at h
    · simp [applyOverride, hl, hcond, ruleNames_append, ruleNames]

theorem applyOverride_frame (t : List (RuleName × RuleExpr)) (ov : OverrideSpec)
    (k : RuleName) (hk : k ≠ ov.name) :
    lookupRule (applyOverride t ov).1 k = lookupRule t k := by
  cases hl : lookupRule t ov.name with
  | some prev =>
    simp [applyOverride, hl]
    exact lookupRule_updateRule_ne t ov.name _ k hk
  | none =>
    by_cases hcond : usesPrevious ov.builder = true ∨ ov.name ∈ reservedNames
    · simp [applyOverride, hl, hcond]
    · simp [applyOverride, hl, hcond]
      exact lookupRule_append_ne t ov.name _ k hk

theorem resolveOverrides_keys (t : List (RuleName × RuleExpr)) (ovs : List OverrideSpec)
    (h : (resolveOverrides t ovs).2 = []) (k : RuleName) :
    k ∈ ruleNames (resolveOverrides t ovs).1 ↔
      k ∈ ruleNames t ∨ k ∈ ovs.map OverrideSpec.name := by
  induction ovs generalizing t with
  | nil => simp [resolveOverrides]
  | cons ov ovs ih =>
    have hsplit : (applyOverride t ov).2 = [] ∧
        (resolveOverrides (applyOverride t ov).1 ovs).2 = [] := by
      simpa [resolveOverrides] using h
    have hfst : (resolveOverrides t (ov :: ovs)).1
        = (resolveOverrides (applyOverride t ov).1 ovs).1 := by
      simp [resolveOverrides]
    rw [hfst, ih _ hsplit.2, applyOverride_keys t ov hsplit.1 k]
    simp [List.map_cons]
    tauto

theorem resolveOverrides_frame (t : List (RuleName × RuleExpr)) (ovs : List OverrideSpec)
    (k : RuleName) (h : k ∉ ovs.map OverrideSpec.name) :
    lookupRule (resolveOverrides t ovs).1 k = lookupRule t k := by
  induction ovs generalizing t with
  | nil => rfl
  | cons ov ovs ih =>
    simp only [List.map_cons, List.mem_cons] at h
    push_neg at h
    have hfst : (resolveOverrides t (ov :: ovs)).1
        = (resolveOverrides (applyOverride t ov).1 ovs).1 := by
      simp [resolveOverrides]
    rw [hfst, ih _ h.2, applyOverride_frame t ov k h.1]

/-! ### Validation lemmas -/

theorem danglingIn_nil_iff (all : List (RuleName × RuleExpr)) (inRule : RuleName)
    (ss : List RuleName) :
    danglingIn all inRule ss = [] ↔ ∀ s ∈ ss, hasKey all s = true := by
  induction ss with
  | nil => simp [danglingIn]
  | cons s ss ih =>
    by_cases hx : hasKey all s = true
    · simp [danglingIn, hx, ih]
    · simp [danglingIn, hx]

theorem refErrs_nil_iff (all t : List (RuleName × RuleExpr)) :
    refErrs all t = [] ↔ ∀ r ∈ t, ∀ s ∈ symbolRefs r.2, hasKey all s = true := by
  induction t with
  | nil => simp [refErrs]
  | cons r rest ih =>
    simp [refErrs, danglingIn_nil_iff, ih]

theorem validate_nil_iff (g : Grammar) :
    validate g = [] ↔
      checkRefClosure g = [] ∧ checkMetadata g = [] ∧ checkWellFormedAll g = []
        ∧ checkNameCollision g = [] := by
  simp [validate]

theorem isUBR_danglingIn (all : List (RuleName × RuleExpr)) (inRule : RuleName)
    (ss : List RuleName) (e : DerivationError) (h : e ∈ danglingIn all inRule ss) :
    isUnknownBaseRule e = false := by
  induction ss with
  | nil => simp [danglingIn] at h
  | cons s ss ih =>
    by_cases hx : hasKey all s = true
    · simp [danglingIn, hx] at h
      exact ih h
    · simp [danglingIn, hx] at h
      rcases h with h | h
      · rw [h]; rfl
      · exact ih h

theorem isUBR_refErrs (all t : List (RuleName × RuleExpr)) (e : DerivationError)
    (h : e ∈ refErrs all t) : isUnknownBaseRule e = false := by
  induction t with
  | nil => simp [refErrs] at h
  | cons r rest ih =>
    simp only [refErrs, List.mem_append] at h
    rcases h with h | h
    · exact isUBR_danglingIn all r.1 _ e h
    · exact ih h

theorem isUBR_metaErrs (all : List (RuleName × RuleExpr)) (fieldName : String)
    (ns : List RuleName) (e : DerivationError) (h : e ∈ metaErrs all fieldName ns) :
    isUnknownBaseRule e = false := by
  induction ns with
  | nil => simp [metaErrs] at h
  | cons n ns ih =>
    by_cases hx : hasKey all n = true
    · simp [metaErrs, hx] at h
      exact ih h
    · simp [metaErrs, hx] at h
      rcases h with h | h
      · rw [h]; rfl
      · exact ih h

theorem isUBR_wfErrs (t : List (RuleName × RuleExpr)) (e : DerivationError)
    (h : e ∈ wfErrs t) : isUnknownBaseRule e = false := by
  induction t with
  | nil => simp [wfErrs] at h
  | cons r rest ih =>
    by_cases hx : wellFormedExpr r.2 = true
    · simp [wfErrs, hx] at h
      exact ih h
    · simp [wfErrs, hx] at h
      rcases h with h | h
      · rw [h]; rfl
      · exact ih h

theorem isUBR_dupErrs (ks : List RuleName) (e : DerivationError)
    (h : e ∈ dupErrs ks) : isUnknownBaseRule e = false := by
  induction ks with
  | nil => simp [dupErrs] at h
  | cons k ks ih =>
    by_cases hx : k ∈ ks
    · simp [dupErrs, hx] at h
      rcases h with h | h
      · rw [h]; rfl
      · exact ih h
    · simp [dupErrs, hx] at h
      exact ih h

theorem isUBR_checkMetadata (g : Grammar) (e : DerivationError) (h : e ∈ checkMetadata g) :
    isUnknownBaseRule e = false := by
  unfold checkMetadata at h
  rcases List.mem_append.mp h with h | h
  · rcases List.mem_append.mp h with h | h
    · rcases List.mem_append.mp h with h | h
      · rcases List.mem_append.mp h with h | h
        · rcases List.mem_append.mp h with h | h
          · exact isUBR_metaErrs g.rules "extras" _ e h
          · cases hw : g.word with
            | none => rw [hw] at h; simp at h
            | some w => rw [hw] at h; exact isUBR_metaErrs g.rules "word" _ e h
        · exact isUBR_metaErrs g.rules "conflicts" _ e h
      · exact isUBR_metaErrs g.rules "precedences" _ e h
    · exact isUBR_metaErrs g.rules "supertypes" _ e h
  · exact isUBR_metaErrs g.rules "externals" _ e h

theorem isUBR_validate (g : Grammar) (e : DerivationError) (h : e ∈ validate g) :
    isUnknownBaseRule e = false := by
  unfold validate at h
  rcases List.mem_append.mp h with h | h
  · rcases List.mem_append.mp h with h | h
    · rcases List.mem_append.mp h with h | h
      · exact isUBR_refErrs g.rules g.rules e h
      · exact isUBR_checkMetadata g e h
    · exact isUBR_wfErrs g.rules e h
  · exact isUBR_dupErrs (ruleNames g.rules) e h

/-! ### Facade lemmas -/

theorem derive_eq_ok (base : Grammar) (ovs : List OverrideSpec) (n : String) (g : Grammar)
    (h : derive base ovs n = Except.ok g) :
    g = candidate base ovs n ∧ (resolveOverrides base.rules ovs).2 = []
      ∧ validate (candidate base ovs n) = [] := by
  unfold derive at h
  cases he : (resolveOverrides base.rules ovs).2 ++ validate (candidate base ovs n) with
  | nil =>
    rw [he] at h
    simp at h
    obtain ⟨h1, h2⟩ := List.append_eq_nil.mp he
    exact ⟨h.symm, h1, h2⟩
  | cons e rest =>
    rw [he] at h
    simp at h

theorem derive_eq_error (base : Grammar) (ovs : List OverrideSpec) (n : String)
    (errs : List DerivationError) (h : derive base ovs n = Except.error errs) :
    errs = (resolveOverrides base.rules ovs).2 ++ validate (candidate base ovs n)
      ∧ errs ≠ [] := by
  unfold derive at h
  cases he : (resolveOverrides base.rules ovs).2 ++ validate (candidate base ovs n) with
  | nil =>
    rw [he] at h
    simp at h
  | cons e rest =>
    rw [he] at h
    simp at h
    refine ⟨by rw [← h], ?_⟩
    rw [← h]
    simp

theorem derive_ok_intro (base : Grammar) (ovs : List OverrideSpec) (n : String)
    (h1 : (resolveOverrides base.rules ovs).2 = [])
    (h2 : validate (candidate base ovs n) = []) :
    derive base ovs n = Except.ok (candidate base ovs n) := by
  unfold derive
  rw [h1, h2]
  rfl

theorem derive_error_intro (base : Grammar) (ovs : List OverrideSpec) (n : String)
    (h : (resolveOverrides base.rules ovs).2 ++ validate (candidate base ovs n) ≠ []) :
    derive base ovs n = Except.error
      ((resolveOverrides base.rules ovs).2 ++ validate (candidate base ovs n)) := by
  unfold derive
  cases he : (resolveOverrides base.rules ovs).2 ++ validate (candidate base ovs n) with
  | nil => exact absurd he h
  | cons e rest => rfl

/-! ### Composition and addition lemmas -/

theorem resolve_two_same_name (t : List (RuleName × RuleExpr)) (n : RuleName)
    (bA bB : BuilderExpr) (e0 : RuleExpr) (h : lookupRule t n = some e0) :
    lookupRule (resolveOverrides t [⟨n, bA⟩, ⟨n, bB⟩]).1 n
      = some (evalBuilder (evalBuilder e0 bA) bB) := by
  have hk : hasKey t n = true := by simp [hasKey, h]
  have h1 : lookupRule (updateRule t n (evalBuilder e0 bA)) n = some (evalBuilder e0 bA) :=
    lookupRule_updateRule_self t n (evalBuilder e0 bA) hk
  have hk1 : hasKey (updateRule t n (evalBuilder e0 bA)) n = true := by
    simp [hasKey, h1]
  have h2 := lookupRule_updateRule_self (updateRule t n (evalBuilder e0 bA)) n
    (evalBuilder (evalBuilder e0 bA) bB) hk1
  simp only [resolveOverrides, applyOverride, h, h1]
  exact h2

theorem resolve_single_absent (t : List (RuleName × RuleExpr)) (ov : OverrideSpec)
    (hl : lookupRule t ov.name = none) :
    (resolveOverrides t [ov]).2
      = (if usesPrevious ov.builder then [DerivationError.UnknownBaseRule ov.name] else [])
        ++ (if ov.name ∈ reservedNames then [DerivationError.ReservedNameCollision ov.name] else []) := by
  by_cases hcond : usesPrevious ov.builder = true ∨ ov.name ∈ reservedNames
  · simp [resolveOverrides, applyOverride, hl, hcond]
  · push_neg at hcond
    have hu : usesPrevious ov.builder = false := by
      cases hb : usesPrevious ov.builder
      · rfl
      · exact absurd hb hcond.1
    simp [resolveOverrides, applyOverride, hl, hu, hcond.2]

theorem resolve_single_addition (t : List (RuleName × RuleExpr)) (ov : OverrideSpec)
    (hl : lookupRule t ov.name = none) (hu : usesPrevious ov.builder = false)
    (hr : ov.name ∉ reservedNames) :
    (resolveOverrides t [ov]).1 = t ++ [(ov.name, evalBuilder (.Literal "") ov.builder)]
      ∧ (resolveOverrides t [ov]).2 = [] := by
  have hcond : ¬(usesPrevious ov.builder = true ∨ ov.name ∈ reservedNames) := by
    rintro (hx | hx)
    · rw [hu] at hx; exact Bool.false_ne_true hx
    · exact hr hx
  constructor
  · simp [resolveOverrides, applyOverride, hl, hcond]
  · simp [resolveOverrides, applyOverride, hl, hcond]

theorem validate_rename (g : Grammar) (n : String) :
    validate { g with name := n } = validate g := by
  cases g
  rfl

/-! ### Claims -/

/-- C1: for every valid base grammar and override sequence, `derive` either
returns a Grammar whose rule table's key set equals the union of the base
grammar's rule names and the override sequence's target names, or returns a
non-empty error list; it never returns a successful Grammar with missing
keys. -/
theorem derive_keys_complete_or_error (base : Grammar) (ovs : List OverrideSpec) (n : String) :
    (∃ g, derive base ovs n = Except.ok g ∧
        ∀ k, k ∈ ruleNames g.rules ↔ (k ∈ ruleNames base.rules ∨ k ∈ ovs.map OverrideSpec.name))
    ∨ (∃ errs, derive base ovs n = Except.error errs ∧ errs ≠ []) := by
  cases hd : derive base ovs n with
  | ok g =>
    left
    refine ⟨g, rfl, fun k => ?_⟩
    obtain ⟨hg, hres, _⟩ := derive_eq_ok base ovs n g hd
    rw [hg]
    exact resolveOverrides_keys base.rules ovs hres k
  | error errs =>
    right
    exact ⟨errs, rfl, (derive_eq_error base ovs n errs hd).2⟩

/-- C6: deriving with an empty override list from a valid base grammar
returns a Grammar structurally equal to the base in every component except
the name field, which becomes the supplied derived name. -/
theorem derive_empty_overrides (base : Grammar) (n : String) (h : validate base = []) :
    derive base [] n = Except.ok { base with name := n } := by
  have hc : candidate base [] n = { base with name := n } := rfl
  have hv : validate (candidate base [] n) = [] := by
    rw [hc, validate_rename]
    exact h
  have hd := derive_ok_intro base [] n rfl hv
  rw [hc] at hd
  exact hd

/-- Witness for C6: deriving from the Scenario 1 base grammar with no
overrides renames it and changes nothing else. -/
theorem derive_empty_overrides_witness :
    derive tsx_base [] "crochet" = Except.ok { tsx_base with name := "crochet" } :=
  derive_empty_overrides tsx_base "crochet" (by decide)

/-- C8: the candidate Grammar produced by resolving rule-body overrides
carries the base grammar's metadata (extras, word token, conflicts,
precedences, supertypes, externals) unchanged; only the rule table and the
name differ from the base. -/
theorem candidate_preserves_metadata (base : Grammar) (ovs : List OverrideSpec) (n : String) :
    (candidate base ovs n).extras = base.extras
    ∧ (candidate base ovs n).word = base.word
    ∧ (candidate base ovs n).conflicts = base.conflicts
    ∧ (candidate base ovs n).precedences = base.precedences
    ∧ (candidate base ovs n).supertypes = base.supertypes
    ∧ (candidate base ovs n).externals = base.externals
    ∧ (candidate base ovs n).name = n :=
  ⟨rfl, rfl, rfl, rfl, rfl, rfl, rfl⟩

/-- C9: the resolver works on a by-value copy of the base table, so every
rule not targeted by an override keeps exactly its base definition in the
derived table, and the base grammar is left available unchanged for further
independent derivations (the embedding is a pure function of its inputs). -/
theorem derive_base_frame (base : Grammar) (ovs : List OverrideSpec) (n : String)
    (k : RuleName) (h : k ∉ ovs.map OverrideSpec.name) :
    lookupRule (candidate base ovs n).rules k = lookupRule base.rules k :=
  resolveOverrides_frame base.rules ovs k h

/-- Witness for C9: the `expression` rule, not targeted by the crochet
override list, is identical in the derived table and the base. -/
theorem derive_base_frame_witness :
    lookupRule (candidate tsx_base crochet_scenario1 "crochet").rules "expression"
      = lookupRule tsx_base.rules "expression" :=
  derive_base_frame tsx_base crochet_scenario1 "crochet" "expression" (by decide)

/-- C10: both override builders of the crochet grammar ignore their
`previous` argument — for any two values of `previous`, each builder
returns the identical rule expression, and neither builder dereferences
`previous`. -/
theorem crochet_builders_ignore_previous (p q : RuleExpr) :
    evalBuilder p parenthesized_expression_builder = evalBuilder q parenthesized_expression_builder
    ∧ evalBuilder p expressions_builder = evalBuilder q expressions_builder
    ∧ usesPrevious parenthesized_expression_builder = false
    ∧ usesPrevious expressions_builder = false :=
  ⟨rfl, rfl, rfl, rfl⟩

/-- C2: two overrides A then B targeting the same rule name compose
left-to-right — when B calls through to `previous`, the final body produced
by the resolver equals B's transformation applied to the result of A's
transformation applied to the original base rule body; in particular, if B
wraps `previous` in `Optional`, the final body is `Optional` of the result
of A. -/
theorem overrides_compose_left_to_right (base : Grammar) (n : RuleName)
    (bA bB : BuilderExpr) (e0 : RuleExpr) (h : lookupRule base.rules n = some e0) :
    lookupRule (resolveOverrides base.rules [⟨n, bA⟩, ⟨n, bB⟩]).1 n
      = some (evalBuilder (evalBuilder e0 bA) bB)
    ∧ lookupRule (resolveOverrides base.rules [⟨n, bA⟩, ⟨n, .Optional .Previous⟩]).1 n
      = some (.Optional (evalBuilder e0 bA)) :=
  ⟨resolve_two_same_name base.rules n bA bB e0 h,
   resolve_two_same_name base.rules n bA (.Optional .Previous) e0 h⟩

/-- Witness for C2: overriding `expression` with a literal and then with an
`Optional` wrap of `previous` yields the `Optional` of the first result. -/
theorem overrides_compose_left_to_right_witness :
    lookupRule (resolveOverrides tsx_base.rules
        [⟨"expression", .Literal "y"⟩, ⟨"expression", .Optional .Previous⟩]).1 "expression"
      = some (RuleExpr.Optional (RuleExpr.Literal "y")) :=
  (overrides_compose_left_to_right tsx_base "expression" (.Literal "y") (.Optional .Previous)
    (.Choice (.ofList [.Literal "x", .Symbol "parenthesized_expression"])) rfl).1

/-- C3: in every derived Grammar that `derive` returns successfully, every
`Symbol` reference occurring anywhere in any rule body resolves to a key
present in its rule table. -/
theorem derive_reference_closure (base : Grammar) (ovs : List OverrideSpec) (n : String)
    (g : Grammar) (h : derive base ovs n = Except.ok g)
    (r : RuleName × RuleExpr) (hr : r ∈ g.rules) (s : RuleName) (hs : s ∈ symbolRefs r.2) :
    hasKey g.rules s = true := by
  obtain ⟨hg, _, hval⟩ := derive_eq_ok base ovs n g h
  have hrc : checkRefClosure (candidate base ovs n) = [] :=
    ((validate_nil_iff _).mp hval).1
  subst hg
  exact (refErrs_nil_iff _ _).mp hrc r hr s hs

/-- Witness for C3: the `parenthesized_expression` reference inside the
successfully derived crochet grammar resolves within its table. -/
theorem derive_reference_closure_witness :
    hasKey (candidate tsx_base crochet_scenario1 "crochet").rules "parenthesized_expression"
      = true :=
  derive_reference_closure tsx_base crochet_scenario1 "crochet"
    (candidate tsx_base crochet_scenario1 "crochet") rfl
    ("expression", .Choice (.ofList [.Literal "x", .Symbol "parenthesized_expression"]))
    (by decide) "parenthesized_expression" (by decide)

/-- C5: Scenario 1 — with the base rule `parenthesized_expression =
seq("(", choice(expression, sequence_expression, type_assertion), ")")`,
the crochet override replacing it with `seq("(", expression, ")")` derives
successfully, the derived body contains no `Symbol` reference to
`sequence_expression` or `type_assertion`, and validation of the derived
grammar still passes. -/
theorem scenario1_narrowing :
    derive tsx_base crochet_scenario1 "crochet"
      = Except.ok (candidate tsx_base crochet_scenario1 "crochet")
    ∧ lookupRule (candidate tsx_base crochet_scenario1 "crochet").rules "parenthesized_expression"
      = some (.Sequence (.ofList [.Literal "(", .Symbol "expression", .Literal ")"]))
    ∧ "sequence_expression" ∉ symbolRefs
        (RuleExpr.Sequence (.ofList [.Literal "(", .Symbol "expression", .Literal ")"]))
    ∧ "type_assertion" ∉ symbolRefs
        (RuleExpr.Sequence (.ofList [.Literal "(", .Symbol "expression", .Literal ")"]))
    ∧ validate (candidate tsx_base crochet_scenario1 "crochet") = [] := by
  refine ⟨rfl, rfl, ?_, ?_, rfl⟩ <;> decide

/-- C7: whenever `derive` fails, the returned error list is non-empty and
contains every diagnostic of every independent validation check on the
candidate (reference closure, metadata consistency, structural
well-formedness, name collision) together with every resolution
diagnostic — defects are aggregated into one report, never surfaced one at
a time. -/
theorem derive_aggregates_diagnostics (base : Grammar) (ovs : List OverrideSpec) (n : String)
    (errs : List DerivationError) (h : derive base ovs n = Except.error errs) :
    errs ≠ []
    ∧ (∀ e ∈ checkRefClosure (candidate base ovs n), e ∈ errs)
    ∧ (∀ e ∈ checkMetadata (candidate base ovs n), e ∈ errs)
    ∧ (∀ e ∈ checkWellFormedAll (candidate base ovs n), e ∈ errs)
    ∧ (∀ e ∈ checkNameCollision (candidate base ovs n), e ∈ errs)
    ∧ (∀ e ∈ (resolveOverrides base.rules ovs).2, e ∈ errs) := by
  obtain ⟨heq, hne⟩ := derive_eq_error base ovs n errs h
  subst heq
  refine ⟨hne, ?_, ?_, ?_, ?_, ?_⟩
  · intro e he
    exact List.mem_append_right _
      (List.mem_append_left _ (List.mem_append_left _ (List.mem_append_left _ he)))
  · intro e he
    exact List.mem_append_right _
      (List.mem_append_left _ (List.mem_append_left _ (List.mem_append_right _ he)))
  · intro e he
    exact List.mem_append_right _ (List.mem_append_left _ (List.mem_append_right _ he))
  · intro e he
    exact List.mem_append_right _ (List.mem_append_right _ he)
  · intro e he
    exact List.mem_append_left _ he

/-- Witness for C7: a grammar with a dangling reference, a missing extras
entry and a malformed body fails with one list carrying the diagnostics of
three different checks. -/
theorem derive_aggregates_diagnostics_witness :
    DerivationError.MalformedExpression "b"
        ∈ [DerivationError.DanglingReference "a" "nope",
           DerivationError.MetadataReferenceInvalid "extras" "ghost",
           DerivationError.MalformedExpression "b"]
    ∧ DerivationError.MetadataReferenceInvalid "extras" "ghost"
        ∈ [DerivationError.DanglingReference "a" "nope",
           DerivationError.MetadataReferenceInvalid "extras" "ghost",
           DerivationError.MalformedExpression "b"] :=
  ⟨(derive_aggregates_diagnostics invalidBase [] "d"
      [DerivationError.DanglingReference "a" "nope",
       DerivationError.MetadataReferenceInvalid "extras" "ghost",
       DerivationError.MalformedExpression "b"] rfl).2.2.2.1
      (DerivationError.MalformedExpression "b") (by decide),
   (derive_aggregates_diagnostics invalidBase [] "d"
      [DerivationError.DanglingReference "a" "nope",
       DerivationError.MetadataReferenceInvalid "extras" "ghost",
       DerivationError.MalformedExpression "b"] rfl).2.2.1
      (DerivationError.MetadataReferenceInvalid "extras" "ghost") (by decide)⟩

/-- C4 counterexample: an override targeting a name absent from the base
whose builder never dereferences `previous` does not always make `derive`
succeed — here the added body carries a dangling reference, so derivation
fails (with `DanglingReference`, not `UnknownBaseRule`). -/
theorem addition_always_succeeds_counterexample :
    ¬ (hasKey additionBase.rules danglingAddition.name = false →
        usesPrevious danglingAddition.builder = false →
        ∃ g, derive additionBase [danglingAddition] "d" = Except.ok g) := by
  intro hcl
  obtain ⟨g, hg⟩ := hcl (by decide) (by decide)
  have hd : derive additionBase [danglingAddition] "d"
      = Except.error [DerivationError.DanglingReference "extra_rule" "missing_rule"] := rfl
  rw [hd] at hg
  exact Except.noConfusion hg

/-- C4 (amended): for a single override targeting a name absent from the
base table, `derive` reports `UnknownBaseRule` if and only if the builder
dereferences its `previous` argument; if the builder never dereferences
`previous` (and the name is not a reserved keyword) the override is
treated as an addition appended to the table, and `derive` succeeds
provided the resulting candidate passes validation. -/
theorem unknownBaseRule_iff_dereferences (base : Grammar) (ov : OverrideSpec) (n : String)
    (hab : hasKey base.rules ov.name = false) :
    ((∃ errs, derive base [ov] n = Except.error errs
        ∧ DerivationError.UnknownBaseRule ov.name ∈ errs)
      ↔ usesPrevious ov.builder = true)
    ∧ (usesPrevious ov.builder = false → ov.name ∉ reservedNames →
        ((resolveOverrides base.rules [ov]).1
            = base.rules ++ [(ov.name, evalBuilder (.Literal "") ov.builder)]
          ∧ (validate (candidate base [ov] n) = [] →
              derive base [ov] n = Except.ok (candidate base [ov] n)))) := by
  have hl : lookupRule base.rules ov.name = none := (hasKey_eq_false_iff _ _).mp hab
  constructor
  · constructor
    · rintro ⟨errs, herr, hmem⟩
      obtain ⟨heq, -⟩ := derive_eq_error base [ov] n errs herr
      subst heq
      rcases List.mem_append.mp hmem with hm | hm
      · rw [resolve_single_absent base.rules ov hl] at hm
        cases hb : usesPrevious ov.builder with
        | true => rfl
        | false =>
          exfalso
          by_cases hr : ov.name ∈ reservedNames
          · simp [hb, hr] at hm
          · simp [hb, hr] at hm
      · exfalso
        have hx := isUBR_validate (candidate base [ov] n) _ hm
        simp [isUnknownBaseRule] at hx
    · intro hu
      have hres : (resolveOverrides base.rules [ov]).2
          = [DerivationError.UnknownBaseRule ov.name]
            ++ (if ov.name ∈ reservedNames
                then [DerivationError.ReservedNameCollision ov.name] else []) := by
        rw [resolve_single_absent base.rules ov hl, if_pos hu]
      have hne : (resolveOverrides base.rules [ov]).2
          ++ validate (candidate base [ov] n) ≠ [] := by
        rw [hres]
        simp
      refine ⟨_, derive_error_intro base [ov] n hne, ?_⟩
      rw [hres]
      simp
  · intro hu hr
    obtain ⟨hfst, hsnd⟩ := resolve_single_addition base.rules ov hl hu hr
    exact ⟨hfst, fun hv => derive_ok_intro base [ov] n hsnd hv⟩

/-- Witness for C4 (amended): adding a fresh literal rule to the minimal
base grammar appends it to the table as an addition. -/
theorem unknownBaseRule_iff_dereferences_witness :
    (resolveOverrides additionBase.rules [⟨"new_rule", .Literal "z"⟩]).1
      = additionBase.rules ++ [("new_rule", RuleExpr.Literal "z")] :=
  ((unknownBaseRule_iff_dereferences additionBase ⟨"new_rule", .Literal "z"⟩ "d"
      (by decide)).2 (by decide) (by decide)).1
